import Mathlib

/-!
# Verification of the indexed min-heap priority queue (`pqueue.cpp`)

Shallow embedding of the `PQueue` class from
`CS 251 Project 7 Priority Queue-Dijkstra/pqueue.cpp`.

Modelling conventions:
* The `double` distances are modelled by `Rat`: the code performs only order
  comparisons and assignments of the literal `-1.0` on distances, and these
  are exact on IEEE doubles, so a dense linear order is a faithful model.
* The two C++ arrays `Queue` (heap array) and `Positions` (vertex → slot)
  are modelled as total functions; the constructor initialises every index,
  which agrees with the C++ initialisation on the allocated range `[0, N)`.
  Reads beyond the allocated range are undefined behaviour in the C++; the
  model resolves them to the same cleared value `-1` the in-range vacant
  slots hold.  The out-of-bounds accesses themselves are the subject of a
  separate instrumentation (`deleteChildCheckAt`).
* The recursive `shiftUp` / `shiftDown` members are embedded fuel-indexed
  (`shiftUpF`, `shiftDownF`, structurally recursive on the fuel, `none` on
  fuel exhaustion); the wrappers `PQueue.shiftUp` / `PQueue.shiftDown` pass
  a fuel that is proved sufficient (the termination theorems below), so the
  wrappers compute exactly the C++ recursion.
* Throwing `logic_error` is modelled by an error value.  Every `throw` in
  the C++ happens before the throwing function mutates the object, so an
  error outcome leaves the pre-state as the surviving state; `Push` returns
  the surviving state explicitly in its second component.
-/

/-- One `(vertex, distance)` entry of the heap array (`PQueue::Elem`);
the default-constructed element is `(-1, -1.0)`. -/
structure Elem where
  V : Int
  D : Rat
deriving DecidableEq, Repr

/-- The state of a `PQueue` object: heap array, position table, current
element count and fixed capacity. -/
structure PQueue where
  Positions : Int → Int
  Queue : Nat → Elem
  NumElements : Nat
  Capacity : Nat

/-- The `logic_error` throws of `pqueue.cpp`, one constructor per throw site. -/
inductive PQError where
  /-- `"Invalid vertex passed to PQueue::Push, must be 0..N-1"` -/
  | pushInvalidVertex
  /-- `"**Internal error: vertex mismatch in PQueue::Push"` -/
  | pushVertexMismatch
  /-- `"**Internal error: vertex position not deleted in PQueue::Push"` -/
  | pushPositionNotDeleted
  /-- `"Invalid vertex passed to PQueue::Insert"` -/
  | insertInvalidVertex
  /-- `"**Internal error: PQueue::Insert called while vertex is still in queue"` -/
  | insertStillInQueue
  /-- `"**Internal error: call to PQueue::Delete with an empty queue"` -/
  | deleteEmptyQueue
  /-- `"**Internal error: invalid position in PQueue::Delete"` -/
  | deleteInvalidPosition
  /-- `"stack empty!"` (thrown by `PopMin`) -/
  | stackEmpty
deriving DecidableEq, Repr

namespace PQueue

/-- `PQueue::PQueue(int N)`: for `N < 0` the allocation `new int[N]` throws
(`std::bad_array_new_length`), modelled as `none`; otherwise an empty queue
with every position marked `-1` and every heap slot default-constructed. -/
def construct (N : Int) : Option PQueue :=
  if N < 0 then none
  else some
    { Positions := fun _ => -1
      Queue := fun _ => { V := -1, D := -1 }
      NumElements := 0
      Capacity := N.toNat }

/-- `PQueue::Fill(double distance)`: assigns every vertex `v ∈ [0, Capacity)`
the entry `(v, distance)` at slot `v` and sets `NumElements = Capacity`. -/
def Fill (s : PQueue) (distance : Rat) : PQueue :=
  { s with
    Queue := fun i => if i < s.Capacity then { V := (i : Int), D := distance } else s.Queue i
    Positions := fun v => if 0 ≤ v ∧ v < (s.Capacity : Int) then v else s.Positions v
    NumElements := s.Capacity }

/-- `PQueue::Empty()`: `NumElements == 0`. -/
def Empty (s : PQueue) : Bool := s.NumElements == 0

/-- `PQueue::getParentIndex`: `(position - 1) / 2`.  For `position = 0` the
C++ computes `-1 / 2 = 0` (truncating division); `Nat` subtraction gives the
same value, so `Nat` arithmetic is faithful at every call site. -/
def getParentIndex (position : Nat) : Nat := (position - 1) / 2

/-- `PQueue::getLeftChildIndex`: `(position * 2) + 1`. -/
def getLeftChildIndex (position : Nat) : Nat := position * 2 + 1

/-- `PQueue::getRightChildIndex`: `(position * 2) + 2`. -/
def getRightChildIndex (position : Nat) : Nat := position * 2 + 2

/-- `PQueue::getSmallerChild`: despite its name, when the two child slots
hold different distances this returns the index of the child with the
*greater* distance (the in-body comment of the C++ admits as much), and the
right child on a tie.  No bounds check is performed. -/
def getSmallerChild (s : PQueue) (position : Nat) : Nat :=
  let leftIndex := position * 2 + 1
  let rightIndex := position * 2 + 2
  if (s.Queue leftIndex).D = (s.Queue rightIndex).D then rightIndex
  else if (s.Queue leftIndex).D > (s.Queue rightIndex).D then leftIndex
  else rightIndex

/-- `PQueue::inCorrectSpotwithRespectToParent`: `true` iff the node is the
root or its distance is strictly greater than its parent's. -/
def inCorrectSpotwithRespectToParent (s : PQueue) (position : Nat) : Bool :=
  if position ≠ 0 then
    if (s.Queue position).D ≤ (s.Queue ((position - 1) / 2)).D then false
    else true
  else true

/-- `PQueue::inCorrectSpotwithRespectToChild`: detects a child by comparing
the raw child slots' distances against the `-1` sentinel (no bounds check),
then compares against `getSmallerChild`. -/
def inCorrectSpotwithRespectToChild (s : PQueue) (position : Nat) : Bool :=
  if (s.Queue (position * 2 + 1)).D ≠ -1 ∨ (s.Queue (position * 2 + 2)).D ≠ -1 then
    if (s.Queue position).D ≤ (s.Queue (getSmallerChild s position)).D then false
    else true
  else true

/-- The swap block inside `PQueue::shiftUp`, in the C++ statement order:
`temp = Queue[parentIndex]; Queue[parentIndex] = Queue[position];
Positions[Queue[parentIndex].V] = parentIndex; Queue[position] = temp;
Positions[Queue[position].V] = position;`. -/
def shiftUpSwap (s : PQueue) (position parentIndex : Nat) : PQueue :=
  let temp := s.Queue parentIndex
  let q1 := Function.update s.Queue parentIndex (s.Queue position)
  let p1 := Function.update s.Positions (q1 parentIndex).V (parentIndex : Int)
  let q2 := Function.update q1 position temp
  let p2 := Function.update p1 (q2 position).V (position : Int)
  { s with Queue := q2, Positions := p2 }

/-- Fuel-indexed `PQueue::shiftUp`.  Mirrors the two guards of the C++:
return when `D(position) ≥ D(parent)`, otherwise swap and recurse on the
parent.  `none` only on fuel exhaustion (impossible with the fuel used by
the wrapper, see the termination theorem). -/
def shiftUpF : Nat → PQueue → Nat → Option PQueue
  | 0, _, _ => none
  | fuel + 1, s, position =>
    let parentIndex := getParentIndex position
    if (s.Queue position).D ≥ (s.Queue parentIndex).D then some s
    else if (s.Queue position).D < (s.Queue parentIndex).D then
      shiftUpF fuel (shiftUpSwap s position parentIndex) parentIndex
    else some s

/-- `PQueue::shiftUp` with the (sufficient) fuel `position + 1`. -/
def shiftUp (s : PQueue) (position : Nat) : PQueue :=
  (shiftUpF (position + 1) s position).getD s

/-- The swap block inside `PQueue::shiftDown`, in the C++ statement order:
`temp = Queue[minIndex]; Queue[minIndex] = Queue[position];
Positions[position] = minIndex; Queue[position] = temp;
Positions[minIndex] = position;`.  Note the C++ indexes `Positions` by the
*slot numbers* `position` and `minIndex` here, not by vertex ids. -/
def shiftDownSwap (s : PQueue) (position minIndex : Nat) : PQueue :=
  let temp := s.Queue minIndex
  let q1 := Function.update s.Queue minIndex (s.Queue position)
  let p1 := Function.update s.Positions (position : Int) (minIndex : Int)
  let q2 := Function.update q1 position temp
  let p2 := Function.update p1 (minIndex : Int) (position : Int)
  { s with Queue := q2, Positions := p2 }

/-- Fuel-indexed `PQueue::shiftDown`, mirroring the C++ control flow: pick
`minIndex` (left child when the right child index is out of the element
range, `getSmallerChild` otherwise), swap-and-recurse when the node's
distance exceeds `minIndex`'s. -/
def shiftDownF : Nat → PQueue → Nat → Option PQueue
  | 0, _, _ => none
  | fuel + 1, s, position =>
    let leftChildIndex := getLeftChildIndex position
    let rightChildIndex := getRightChildIndex position
    if rightChildIndex ≥ s.NumElements then
      if leftChildIndex ≥ s.NumElements then some s
      else
        if (s.Queue position).D > (s.Queue leftChildIndex).D then
          shiftDownF fuel (shiftDownSwap s position leftChildIndex) leftChildIndex
        else some s
    else
      let minIndex := getSmallerChild s position
      if (s.Queue position).D > (s.Queue minIndex).D then
        shiftDownF fuel (shiftDownSwap s position minIndex) minIndex
      else some s

/-- `PQueue::shiftDown` with the (sufficient) fuel `NumElements + 1`. -/
def shiftDown (s : PQueue) (position : Nat) : PQueue :=
  (shiftDownF (s.NumElements + 1) s position).getD s

/-- `PQueue::swap`: shift up when out of place w.r.t. the parent, then (on
the resulting state) shift down when out of place w.r.t. the children. -/
def swap (s : PQueue) (position : Nat) : PQueue :=
  let s1 := if inCorrectSpotwithRespectToParent s position then s else shiftUp s position
  if inCorrectSpotwithRespectToChild s1 position then s1 else shiftDown s1 position

/-- The append block of `PQueue::Insert`: write `(v, d)` at slot
`NumElements`, record the position, increment the count. -/
def insertBase (s : PQueue) (v : Int) (d : Rat) : PQueue :=
  { s with
    Queue := Function.update s.Queue s.NumElements { V := v, D := d }
    Positions := Function.update s.Positions v (s.NumElements : Int)
    NumElements := s.NumElements + 1 }

/-- `PQueue::Insert(int v, double d)`: validate, append `(v, d)` at slot
`NumElements`, record the position, increment the count, then shift up when
the new entry's distance is below its parent's. -/
def Insert (s : PQueue) (v : Int) (d : Rat) : Except PQError PQueue :=
  if v < 0 ∨ v ≥ (s.Capacity : Int) then .error .insertInvalidVertex
  else if s.Positions v ≠ -1 then .error .insertStillInQueue
  else
    let s1 := insertBase s v d
    if (s1.Queue (s1.NumElements - 1)).D < (s1.Queue (getParentIndex (s1.NumElements - 1))).D
    then .ok (shiftUp s1 (s1.NumElements - 1))
    else .ok s1

/-- The move/clear block of the general path of `PQueue::Delete`, in the
C++ statement order: `NumElements--; Queue[position] = Queue[NumElements];
Positions[Queue[position].V] = position; Positions[v] = -1;
Queue[NumElements] = (-1, -1);` where `v` is the vertex grabbed from
`Queue[position]` before the move. -/
def deleteMove (s : PQueue) (pos : Nat) : PQueue :=
  let v := (s.Queue pos).V
  let newCount := s.NumElements - 1
  let q1 := Function.update s.Queue pos (s.Queue newCount)
  let p1 := Function.update s.Positions (q1 pos).V (pos : Int)
  let p2 := Function.update p1 v (-1)
  let q2 := Function.update q1 newCount { V := -1, D := -1 }
  { s with NumElements := newCount, Queue := q2, Positions := p2 }

/-- `PQueue::Delete(int position)`: validate, then one of the three paths of
the C++ (last slot, single element, general move-last-into-hole followed by
the correct-spot checks and `swap`).  Returns the deleted vertex. -/
def Delete (s : PQueue) (position : Int) : Except PQError (Int × PQueue) :=
  if s.NumElements = 0 then .error .deleteEmptyQueue
  else if position < 0 ∨ position ≥ (s.NumElements : Int) then .error .deleteInvalidPosition
  else
    let pos := position.toNat
    let v := (s.Queue pos).V
    if pos = s.NumElements - 1 then
      .ok (v, { s with
        Queue := Function.update s.Queue pos { V := -1, D := -1 }
        Positions := Function.update s.Positions v (-1)
        NumElements := s.NumElements - 1 })
    else if s.NumElements = 1 then
      .ok (v, { s with
        NumElements := s.NumElements - 1
        Positions := Function.update s.Positions v (-1)
        Queue := Function.update s.Queue (s.NumElements - 1) { V := -1, D := -1 } })
    else
      let s1 := deleteMove s pos
      if inCorrectSpotwithRespectToParent s1 pos ∧ inCorrectSpotwithRespectToChild s1 pos then
        .ok (v, s1)
      else
        .ok (v, swap s1 pos)

/-- `PQueue::Push(int vertex, double distance)`: validate the vertex, delete
the existing entry when the position table says the vertex is present
(checking the two internal-consistency conditions), then `Insert`.  The
second component is the state surviving the call (every C++ throw happens
before the throwing callee mutates the object, so on an error the state at
the throw point survives). -/
def Push (s : PQueue) (vertex : Int) (distance : Rat) : Option PQError × PQueue :=
  if vertex < 0 ∨ vertex ≥ (s.Capacity : Int) then (some .pushInvalidVertex, s)
  else if s.Positions vertex ≥ 0 then
    match Delete s (s.Positions vertex) with
    | .error e => (some e, s)
    | .ok (deletedV, s1) =>
      if deletedV ≠ vertex then (some .pushVertexMismatch, s1)
      else if s1.Positions vertex ≠ -1 then (some .pushPositionNotDeleted, s1)
      else
        match Insert s1 vertex distance with
        | .error e => (some e, s1)
        | .ok s2 => (none, s2)
  else
    match Insert s vertex distance with
    | .error e => (some e, s)
    | .ok s2 => (none, s2)

/-- `PQueue::PopMin()`: throw `"stack empty!"` on an empty queue, otherwise
`Delete(0)`; returns the popped vertex. -/
def PopMin (s : PQueue) : Option PQError × Option Int × PQueue :=
  if Empty s then (some .stackEmpty, none, s)
  else
    match Delete s 0 with
    | .error e => (some e, none, s)
    | .ok (v, s1) => (none, some v, s1)

/-! ## Derived notions: reachability, invariants, traces -/

/-- States reachable from a construction by successful public operations
(`Push` and `PopMin` count as successful when they throw nothing; `Empty`
and the diagnostic dump do not mutate). -/
inductive Reachable : PQueue → Prop where
  | init (N : Int) (s : PQueue) : construct N = some s → Reachable s
  | fill (s : PQueue) (d : Rat) : Reachable s → Reachable (Fill s d)
  | push (s : PQueue) (v : Int) (d : Rat) (t : PQueue) :
      Reachable s → Push s v d = (none, t) → Reachable t
  | pop (s : PQueue) (v : Int) (t : PQueue) :
      Reachable s → PopMin s = (none, some v, t) → Reachable t

/-- Heap-order invariant I1, decidably: every occupied non-root slot's
distance is at least its parent slot's distance. -/
def heapOrdered (s : PQueue) : Bool :=
  (List.range s.NumElements).all fun i =>
    i == 0 || decide ((s.Queue ((i - 1) / 2)).D ≤ (s.Queue i).D)

/-- Bijection invariant I2, decidably: every occupied slot's vertex maps
back to that slot, and every vertex not marked absent maps to an occupied
slot holding it. -/
def bijectionOK (s : PQueue) : Bool :=
  ((List.range s.NumElements).all fun i => s.Positions (s.Queue i).V == (i : Int)) &&
  ((List.range s.Capacity).all fun v =>
    s.Positions (v : Int) == -1 ||
      (decide (0 ≤ s.Positions (v : Int)) &&
       decide (s.Positions (v : Int) < (s.NumElements : Int)) &&
       ((s.Queue (s.Positions (v : Int)).toNat).V == (v : Int))))

/-- No vertex occupies two heap slots, and every vertex occupying a slot is
not marked absent in the position table.  This is the part of the spec's
I2/I3 that the code does maintain (proved below for all reachable states);
the full I2 fails (claim C3). -/
def Inv (s : PQueue) : Prop :=
  (∀ i j, i < s.NumElements → j < s.NumElements → i ≠ j → (s.Queue i).V ≠ (s.Queue j).V) ∧
  (∀ i, i < s.NumElements → s.Positions (s.Queue i).V ≠ -1)

/-- Vertex `w` is present with distance `e` at the slot the position table
records for it. -/
def Track (s : PQueue) (w : Int) (e : Rat) : Prop :=
  ∃ i, i < s.NumElements ∧ s.Positions w = (i : Int) ∧ s.Queue i = { V := w, D := e }

/-- Every occupied slot's vertex satisfies `S`. -/
def OccSub (s : PQueue) (S : Int → Prop) : Prop :=
  ∀ i, i < s.NumElements → S (s.Queue i).V

/-- Runs a list of `Push` calls, `none` as soon as one throws. -/
def pushSeq : PQueue → List (Int × Rat) → Option PQueue
  | s, [] => some s
  | s, (v, d) :: rest =>
    match Push s v d with
    | (none, t) => pushSeq t rest
    | (some _, _) => none

/-- Runs `m` `PopMin` calls, `none` as soon as one throws. -/
def popSeq : PQueue → Nat → Option PQueue
  | s, 0 => some s
  | s, m + 1 =>
    match PopMin s with
    | (none, some _, t) => popSeq t m
    | _ => none

/-- Instrumentation for the out-of-bounds analysis: mirrors the guards of
`Delete` and returns the position at which the general path invokes
`inCorrectSpotwithRespectToChild`.  The general path always invokes it at
the delete position: in the early-return condition when
`inCorrectSpotwithRespectToParent` returns `true` (`&&` short-circuit),
otherwise inside `swap`. -/
def deleteChildCheckAt (s : PQueue) (position : Int) : Option Nat :=
  if s.NumElements = 0 then none
  else if position < 0 ∨ position ≥ (s.NumElements : Int) then none
  else
    let pos := position.toNat
    if pos = s.NumElements - 1 then none
    else if s.NumElements = 1 then none
    else some pos

/-- The raw heap-array indices `inCorrectSpotwithRespectToChild` reads at
`position`: the sentinel test reads slot `2·position+1`, and slot
`2·position+2` is read on either branch of the short-circuit `||`
(directly when the left read returned `-1`, via `getSmallerChild`
otherwise).  No index is checked against `Capacity`. -/
def childCheckReadIndices (position : Nat) : List Nat :=
  [position * 2 + 1, position * 2 + 2]

/-- The state after a `Push`, ignoring the error flag (used to spell out
concrete traces; the reachability lemmas certify the flag was `none`). -/
def pushD (s : PQueue) (v : Int) (d : Rat) : PQueue := (Push s v d).2

/-- The state after a `PopMin`, ignoring error flag and popped vertex. -/
def popD (s : PQueue) : PQueue := (PopMin s).2.2

/-- A freshly constructed queue of capacity 1. -/
def fresh1 : PQueue :=
  { Positions := fun _ => -1, Queue := fun _ => { V := -1, D := -1 }
    NumElements := 0, Capacity := 1 }

/-- A freshly constructed queue of capacity 2. -/
def fresh2 : PQueue :=
  { Positions := fun _ => -1, Queue := fun _ => { V := -1, D := -1 }
    NumElements := 0, Capacity := 2 }

/-- A freshly constructed queue of capacity 4. -/
def fresh4 : PQueue :=
  { Positions := fun _ => -1, Queue := fun _ => { V := -1, D := -1 }
    NumElements := 0, Capacity := 4 }

/-- A freshly constructed queue of capacity 5. -/
def fresh5 : PQueue :=
  { Positions := fun _ => -1, Queue := fun _ => { V := -1, D := -1 }
    NumElements := 0, Capacity := 5 }

/-- Trace for claims C1/C2: capacity 4, `Push(0,1); Push(1,2); Push(2,3);
Push(3,4)`.  The heap array is `[(0,1),(1,2),(2,3),(3,4)]`. -/
def t1a : PQueue := pushD (pushD (pushD (pushD fresh4 0 1) 1 2) 2 3) 3 4

/-- `t1a` after one `PopMin` (which returns vertex 0): the last element
`(3,4)` was moved to the root and never sifted down, so the heap array is
`[(3,4),(1,2),(2,3)]`. -/
def t1b : PQueue := popD t1a

/-- Trace for claim C3: capacity 4, `Push(0,-10); Push(1,-5); Push(2,-2)`. -/
def t3a : PQueue := pushD (pushD (pushD fresh4 0 (-10)) 1 (-5)) 2 (-2)

/-- `t3a` after one `PopMin`: the buggy `shiftDown` position update ran
(`Positions[0] = 1`, `Positions[1] = 0` — slot-indexed), leaving
`Positions` = `[1, 0, 0, -1]` against the heap array `[(1,-5),(2,-2)]`. -/
def t3b : PQueue := popD t3a

/-- Trace for claim C4: capacity 4 with the strictly decreasing distances
`4 > 3 > 2 > 1` pushed to vertices `0,1,2,3`. -/
def t4a : PQueue := pushD (pushD (pushD (pushD fresh4 0 4) 1 3) 2 2) 3 1

/-- `t4a` after one `PopMin` (which returns vertex 3 correctly). -/
def t4b : PQueue := popD t4a

/-- Trace for claim C10: capacity 2, `Push(0,1); Push(1,2)`. -/
def t10a : PQueue := pushD (pushD fresh2 0 1) 1 2

/-! ## Reachability of the concrete traces -/

lemma push_ok_pair {s : PQueue} {v : Int} {d : Rat} (h : (Push s v d).1 = none) :
    Push s v d = (none, pushD s v d) := by
  have he : Push s v d = ((Push s v d).1, (Push s v d).2) := rfl
  rw [he, h]; rfl

lemma pop_ok_triple {s : PQueue} {v : Int} (h1 : (PopMin s).1 = none)
    (h2 : (PopMin s).2.1 = some v) :
    PopMin s = (none, some v, popD s) := by
  have he : PopMin s = ((PopMin s).1, (PopMin s).2.1, (PopMin s).2.2) := rfl
  rw [he, h1, h2]; rfl

lemma reachable_fresh2 : Reachable fresh2 := .init 2 fresh2 rfl

lemma reachable_fresh4 : Reachable fresh4 := .init 4 fresh4 rfl

lemma reachable_t1a : Reachable t1a := by
  have h1 : Reachable (pushD fresh4 0 1) :=
    .push _ 0 1 _ reachable_fresh4 (push_ok_pair (by decide))
  have h2 : Reachable (pushD (pushD fresh4 0 1) 1 2) :=
    .push _ 1 2 _ h1 (push_ok_pair (by decide))
  have h3 : Reachable (pushD (pushD (pushD fresh4 0 1) 1 2) 2 3) :=
    .push _ 2 3 _ h2 (push_ok_pair (by decide))
  exact .push _ 3 4 _ h3 (push_ok_pair (by decide))

lemma reachable_t1b : Reachable t1b :=
  .pop t1a 0 t1b reachable_t1a (pop_ok_triple (by decide) (by decide))

lemma reachable_t3a : Reachable t3a := by
  have h1 : Reachable (pushD fresh4 0 (-10)) :=
    .push _ 0 (-10) _ reachable_fresh4 (push_ok_pair (by decide))
  have h2 : Reachable (pushD (pushD fresh4 0 (-10)) 1 (-5)) :=
    .push _ 1 (-5) _ h1 (push_ok_pair (by decide))
  exact .push _ 2 (-2) _ h2 (push_ok_pair (by decide))

lemma reachable_t3b : Reachable t3b :=
  .pop t3a 0 t3b reachable_t3a (pop_ok_triple (by decide) (by decide))

lemma reachable_t4a : Reachable t4a := by
  have h1 : Reachable (pushD fresh4 0 4) :=
    .push _ 0 4 _ reachable_fresh4 (push_ok_pair (by decide))
  have h2 : Reachable (pushD (pushD fresh4 0 4) 1 3) :=
    .push _ 1 3 _ h1 (push_ok_pair (by decide))
  have h3 : Reachable (pushD (pushD (pushD fresh4 0 4) 1 3) 2 2) :=
    .push _ 2 2 _ h2 (push_ok_pair (by decide))
  exact .push _ 3 1 _ h3 (push_ok_pair (by decide))

lemma reachable_t4b : Reachable t4b :=
  .pop t4a 3 t4b reachable_t4a (pop_ok_triple (by decide) (by decide))

lemma reachable_t10a : Reachable t10a := by
  have h1 : Reachable (pushD fresh2 0 1) :=
    .push _ 0 1 _ reachable_fresh2 (push_ok_pair (by decide))
  exact .push _ 1 2 _ h1 (push_ok_pair (by decide))

/-! ## Claim theorems (part 1: evaluations and error handling) -/

/-- Claim C1 (code bug, evaluation at the failing input): on the reachable
state `t1b` (capacity 4; `Push(0,1); Push(1,2); Push(2,3); Push(3,4);
PopMin`), the next `PopMin` succeeds and returns vertex 3 whose distance is
4, although vertex 1 is present with the strictly smaller distance 2 — the
returned vertex does not have the minimum distance among present
vertices. -/
theorem claim_C1_popmin_not_min :
    Reachable t1b ∧
    (PopMin t1b).1 = none ∧ (PopMin t1b).2.1 = some 3 ∧
    t1b.NumElements = 3 ∧ t1b.Queue 0 = { V := 3, D := 4 } ∧
    t1b.Queue 1 = { V := 1, D := 2 } ∧ (t1b.Queue 1).D < (t1b.Queue 0).D :=
  ⟨reachable_t1b, by decide⟩

/-- Claim C2 (code bug, evaluation at the failing input): the heap-order
invariant I1 holds after the four pushes of the C1 trace but is violated
after the subsequent successful `PopMin` (slot 1 holds distance 2 under a
root of distance 4): `Delete`'s restore step never sifts the moved
element down in this situation. -/
theorem claim_C2_heap_order_broken :
    Reachable t1b ∧ heapOrdered t1a = true ∧ heapOrdered t1b = false :=
  ⟨reachable_t1b, by decide⟩

/-- Claim C3 (code bug, evaluation at the failing input): after the
reachable trace `Push(0,-10); Push(1,-5); Push(2,-2); PopMin` (capacity 4)
the bijection invariant I2 fails: `Positions[0] = 1` although vertex 0 was
popped, and vertex 2 occupies slot 1 while `Positions[2] = 0`.  The
`shiftDown` swap indexed `Positions` by slot numbers instead of vertex
ids. -/
theorem claim_C3_bijection_broken :
    Reachable t3b ∧ bijectionOK t3a = true ∧ bijectionOK t3b = false ∧
    t3b.NumElements = 2 ∧ (t3b.Queue 0).V = 1 ∧ (t3b.Queue 1).V = 2 ∧
    t3b.Positions 2 = 0 ∧ t3b.Positions 0 = 1 :=
  ⟨reachable_t3b, by decide⟩

/-- Claim C4 (code bug, evaluation at the failing input): with `N = 4` and
the strictly decreasing distances `4 > 3 > 2 > 1` pushed to vertices
`0,1,2,3`, the claim demands the pops return `3, 2, 1, 0`; the code's first
pop returns 3 but the second returns vertex 0 (distance 4) instead of
vertex 2 (distance 2). -/
theorem claim_C4_extraction_order_broken :
    Reachable t4a ∧
    (PopMin t4a).1 = none ∧ (PopMin t4a).2.1 = some 3 ∧
    (PopMin t4b).1 = none ∧ (PopMin t4b).2.1 = some 0 :=
  ⟨reachable_t4a, by decide⟩

/-- Claim C10 (code bug, evaluation at the failing input): on the reachable
capacity-2 state `t10a` with 2 elements, `PopMin` succeeds and its
`Delete(0)` takes the general path, which invokes
`inCorrectSpotwithRespectToChild` at slot 0; that check reads the raw heap
indices 1 and 2, and index 2 is not below the capacity 2 — an
out-of-bounds read of the allocated heap array. -/
theorem claim_C10_oob_child_read :
    Reachable t10a ∧ t10a.Capacity = 2 ∧ t10a.NumElements = 2 ∧
    Empty t10a = false ∧ (PopMin t10a).1 = none ∧
    deleteChildCheckAt t10a 0 = some 0 ∧
    childCheckReadIndices 0 = [1, 2] ∧ ¬ 2 < t10a.Capacity :=
  ⟨reachable_t10a, by decide⟩

/-- Claim C6 (confirmed): `construct` fails exactly for a negative
capacity (the C++ `new int[N]` throws for `N < 0`), and a successful
construction yields an empty queue whose position entries are all `-1`. -/
theorem claim_C6_construct (N : Int) :
    (construct N = none ↔ N < 0) ∧
    ∀ s, construct N = some s →
      s.NumElements = 0 ∧ ∀ v : Int, 0 ≤ v → v < N → s.Positions v = -1 := by
  by_cases h : N < 0
  · refine ⟨by simp [construct, h], fun s hs => ?_⟩
    simp [construct, h] at hs
  · refine ⟨by simp [construct, h], fun s hs => ?_⟩
    simp only [construct, if_neg h, Option.some.injEq] at hs
    subst hs
    exact ⟨rfl, fun v _ _ => rfl⟩

/-- Witness for C6 at the concrete capacity 5. -/
theorem claim_C6_construct_witness :
    fresh5.NumElements = 0 ∧ fresh5.Positions 3 = -1 :=
  ⟨((claim_C6_construct 5).2 fresh5 rfl).1,
   ((claim_C6_construct 5).2 fresh5 rfl).2 3 (by decide) (by decide)⟩

/-- Claim C7 (confirmed): pushing an out-of-range vertex on any reachable
state throws the out-of-range `logic_error` and the surviving state is the
unchanged pre-state (the throw is the first statement of `Push`). -/
theorem claim_C7_push_out_of_range (s : PQueue) (_hs : Reachable s) (v : Int)
    (hv : v < 0 ∨ v ≥ (s.Capacity : Int)) (d : Rat) :
    Push s v d = (some .pushInvalidVertex, s) := by
  unfold Push
  rw [if_pos hv]

/-- Witness for C7: Scenario D of the spec (capacity 5, `Push(5, 1)`). -/
theorem claim_C7_push_out_of_range_witness :
    Push fresh5 5 1 = (some .pushInvalidVertex, fresh5) :=
  claim_C7_push_out_of_range fresh5 (.init 5 fresh5 rfl) 5 (by decide) 1

/-! ## The swap steps, pointwise -/

lemma shiftUpSwap_queue (s : PQueue) (p par k : Nat) :
    (shiftUpSwap s p par).Queue k =
      if k = p then s.Queue par else if k = par then s.Queue p else s.Queue k := by
  simp only [shiftUpSwap, Function.update_apply]

lemma shiftUpSwap_positions (s : PQueue) (p par : Nat) (w : Int) :
    (shiftUpSwap s p par).Positions w =
      if w = (s.Queue par).V then (p : Int)
      else if w = (s.Queue p).V then (par : Int)
      else s.Positions w := by
  simp only [shiftUpSwap, Function.update_apply]
  split_ifs <;> simp_all

lemma shiftDownSwap_queue (s : PQueue) (p m k : Nat) :
    (shiftDownSwap s p m).Queue k =
      if k = p then s.Queue m else if k = m then s.Queue p else s.Queue k := by
  simp only [shiftDownSwap, Function.update_apply]

lemma shiftDownSwap_positions (s : PQueue) (p m : Nat) (w : Int) :
    (shiftDownSwap s p m).Positions w =
      if w = (m : Int) then (p : Int)
      else if w = (p : Int) then (m : Int)
      else s.Positions w := by
  simp only [shiftDownSwap, Function.update_apply]

/-! ## Invariant preservation under a transposition of two occupied slots -/

/-- Any state obtained from `s` by exchanging the contents of two occupied
slots, while writing nothing but non-`-1` values into the position table,
preserves `Inv`. -/
lemma swapLike_inv {s t : PQueue} {a b : Nat}
    (ha : a < s.NumElements) (hb : b < s.NumElements)
    (hnum : t.NumElements = s.NumElements)
    (hq : ∀ k, t.Queue k = if k = a then s.Queue b else if k = b then s.Queue a else s.Queue k)
    (hpres : ∀ w, t.Positions w = -1 → s.Positions w = -1)
    (hInv : Inv s) : Inv t := by
  obtain ⟨hnd, hmk⟩ := hInv
  constructor
  · intro i j hi hj hij heq
    rw [hnum] at hi hj
    rw [hq i, hq j] at heq
    split_ifs at heq <;>
      first
        | omega
        | exact hnd _ _ (by assumption) (by assumption) (by omega) heq
  · intro i hi
    rw [hnum] at hi
    rw [hq i]
    split_ifs
    · exact fun hc => hmk b hb (hpres _ hc)
    · exact fun hc => hmk a ha (hpres _ hc)
    · exact fun hc => hmk i hi (hpres _ hc)

lemma shiftUpSwap_inv {s : PQueue} {p par : Nat} (hp : p < s.NumElements)
    (hpar : par < s.NumElements) (hInv : Inv s) : Inv (shiftUpSwap s p par) := by
  refine swapLike_inv hp hpar rfl (shiftUpSwap_queue s p par) ?_ hInv
  intro w hw
  rw [shiftUpSwap_positions] at hw
  split_ifs at hw
  exact hw

lemma shiftDownSwap_inv {s : PQueue} {p m : Nat} (hp : p < s.NumElements)
    (hm : m < s.NumElements) (hInv : Inv s) : Inv (shiftDownSwap s p m) := by
  refine swapLike_inv hp hm rfl (shiftDownSwap_queue s p m) ?_ hInv
  intro w hw
  rw [shiftDownSwap_positions] at hw
  split_ifs at hw
  exact hw

/-- `shiftUpSwap` keeps every tracked vertex tracked: the C++ updates both
position entries with the vertex ids actually moved. -/
lemma shiftUpSwap_track {s : PQueue} {p par : Nat} (hp : p < s.NumElements)
    (hpar : par < s.NumElements) (hne : p ≠ par) (hInv : Inv s) :
    ∀ w e, Track s w e → Track (shiftUpSwap s p par) w e := by
  rintro w e ⟨i, hi, hpos, hqi⟩
  have hVi : (s.Queue i).V = w := by rw [hqi]
  by_cases hip : i = p
  · have hne2 : w ≠ (s.Queue par).V := by
      intro hweq
      exact hInv.1 i par hi hpar (by omega) (by rw [hVi, hweq])
    refine ⟨par, hpar, ?_, ?_⟩
    · rw [shiftUpSwap_positions, if_neg hne2, if_pos (by rw [← hip, hVi])]
    · rw [shiftUpSwap_queue, if_neg (by omega), if_pos rfl, ← hip]
      exact hqi
  · by_cases hipar : i = par
    · refine ⟨p, hp, ?_, ?_⟩
      · rw [shiftUpSwap_positions, if_pos (by rw [← hipar, hVi])]
      · rw [shiftUpSwap_queue, if_pos rfl, ← hipar]
        exact hqi
    · have hne2 : w ≠ (s.Queue par).V := by
        intro hweq
        exact hInv.1 i par hi hpar hipar (by rw [hVi, hweq])
      have hne3 : w ≠ (s.Queue p).V := by
        intro hweq
        exact hInv.1 i p hi hp hip (by rw [hVi, hweq])
      refine ⟨i, hi, ?_, ?_⟩
      · rw [shiftUpSwap_positions, if_neg hne2, if_neg hne3]
        exact hpos
      · rw [shiftUpSwap_queue, if_neg hip, if_neg hipar]
        exact hqi

/-! ## Preservation along the fuelled sift recursions -/

lemma shiftUpF_basic : ∀ fuel s p t, shiftUpF fuel s p = some t →
    t.NumElements = s.NumElements ∧ t.Capacity = s.Capacity := by
  intro fuel
  induction fuel with
  | zero => intro s p t h; simp [shiftUpF] at h
  | succ fuel ih =>
    intro s p t h
    simp only [shiftUpF] at h
    split_ifs at h with h1 h2
    · injection h with h; subst h; exact ⟨rfl, rfl⟩
    · exact ih (shiftUpSwap s p (getParentIndex p)) (getParentIndex p) t h
    · injection h with h; subst h; exact ⟨rfl, rfl⟩

lemma shiftUpF_main : ∀ fuel s p t, shiftUpF fuel s p = some t → p < s.NumElements → Inv s →
    Inv t ∧ ∀ w e, Track s w e → Track t w e := by
  intro fuel
  induction fuel with
  | zero => intro s p t h _ _; simp [shiftUpF] at h
  | succ fuel ih =>
    intro s p t h hp hInv
    simp only [shiftUpF] at h
    split_ifs at h with h1 h2
    · injection h with h; subst h; exact ⟨hInv, fun _ _ ht => ht⟩
    · have hp0 : p ≠ 0 := by
        rintro rfl
        exact h1 (by simp [getParentIndex])
      have hparlt : getParentIndex p < p := by
        unfold getParentIndex; omega
      have hparn : getParentIndex p < s.NumElements := lt_trans hparlt hp
      have hrec := ih (shiftUpSwap s p (getParentIndex p)) (getParentIndex p) t h
        (by exact hparn) (shiftUpSwap_inv hp hparn hInv)
      refine ⟨hrec.1, fun w e ht => hrec.2 w e ?_⟩
      exact shiftUpSwap_track hp hparn (by omega) hInv w e ht
    · injection h with h; subst h; exact ⟨hInv, fun _ _ ht => ht⟩

lemma shiftDownF_basic : ∀ fuel s p t, shiftDownF fuel s p = some t →
    t.NumElements = s.NumElements ∧ t.Capacity = s.Capacity := by
  intro fuel
  induction fuel with
  | zero => intro s p t h; simp [shiftDownF] at h
  | succ fuel ih =>
    intro s p t h
    simp only [shiftDownF] at h
    split_ifs at h with h1 h2 h3 h4
    · injection h with h; subst h; exact ⟨rfl, rfl⟩
    · exact ih (shiftDownSwap s p (getLeftChildIndex p)) (getLeftChildIndex p) t h
    · injection h with h; subst h; exact ⟨rfl, rfl⟩
    · exact ih (shiftDownSwap s p (getSmallerChild s p)) (getSmallerChild s p) t h
    · injection h with h; subst h; exact ⟨rfl, rfl⟩

lemma getSmallerChild_cases (s : PQueue) (p : Nat) :
    getSmallerChild s p = p * 2 + 1 ∨ getSmallerChild s p = p * 2 + 2 := by
  simp only [getSmallerChild]
  split_ifs <;> simp

lemma shiftDownF_inv : ∀ fuel s p t, shiftDownF fuel s p = some t → Inv s → Inv t := by
  intro fuel
  induction fuel with
  | zero => intro s p t h _; simp [shiftDownF] at h
  | succ fuel ih =>
    intro s p t h hInv
    simp only [shiftDownF] at h
    split_ifs at h with h1 h2 h3 h4
    · injection h with h; subst h; exact hInv
    · -- only-left-child swap: left = getLeftChildIndex p < NumElements
      have hl : getLeftChildIndex p < s.NumElements := by
        simp only [getLeftChildIndex] at h2 ⊢
        omega
      have hplt : p < s.NumElements := by
        simp only [getLeftChildIndex] at hl
        omega
      exact ih (shiftDownSwap s p (getLeftChildIndex p)) (getLeftChildIndex p) t h
        (shiftDownSwap_inv hplt hl hInv)
    · injection h with h; subst h; exact hInv
    · -- two-children swap: minIndex = getSmallerChild s p < NumElements
      have hr : getRightChildIndex p < s.NumElements := by
        simp only [getRightChildIndex] at h1 ⊢
        omega
      have hm : getSmallerChild s p < s.NumElements := by
        rcases getSmallerChild_cases s p with hcase | hcase <;>
          (rw [hcase]; simp only [getRightChildIndex] at hr; omega)
      have hplt : p < s.NumElements := by
        simp only [getRightChildIndex] at hr
        omega
      exact ih (shiftDownSwap s p (getSmallerChild s p)) (getSmallerChild s p) t h
        (shiftDownSwap_inv hplt hm hInv)
    · injection h with h; subst h; exact hInv


/-! ## Termination: the wrappers' fuel is sufficient and fuel-irrelevant -/

@[simp] lemma shiftUpSwap_num (s : PQueue) (p par : Nat) :
    (shiftUpSwap s p par).NumElements = s.NumElements := rfl

@[simp] lemma shiftUpSwap_cap (s : PQueue) (p par : Nat) :
    (shiftUpSwap s p par).Capacity = s.Capacity := rfl

@[simp] lemma shiftDownSwap_num (s : PQueue) (p m : Nat) :
    (shiftDownSwap s p m).NumElements = s.NumElements := rfl

@[simp] lemma shiftDownSwap_cap (s : PQueue) (p m : Nat) :
    (shiftDownSwap s p m).Capacity = s.Capacity := rfl

/-- Any fuel above the sift-up position computes the same result as the
wrapper's canonical fuel `position + 1`: the recursion strictly descends
toward the root and reaches its guard before the fuel runs out. -/
lemma shiftUpF_eq_shiftUp : ∀ p fuel s, p < fuel → shiftUpF fuel s p = some (shiftUp s p) := by
  intro p
  induction p using Nat.strong_induction_on with
  | _ p ih =>
    intro fuel s hpf
    obtain ⟨f, rfl⟩ : ∃ f, fuel = f + 1 := ⟨fuel - 1, by omega⟩
    unfold shiftUp
    simp only [shiftUpF]
    split_ifs with h1 h2
    · simp
    · have hp0 : p ≠ 0 := by
        rintro rfl
        exact h1 (by simp [getParentIndex])
      have hparlt : getParentIndex p < p := by unfold getParentIndex; omega
      rw [ih (getParentIndex p) hparlt f _ (by omega)]
      rw [ih (getParentIndex p) hparlt p _ hparlt]
      simp
    · exact absurd (lt_of_not_ge h1) h2

/-- Fuel irrelevance for sift-down: any two fuels at least
`max 1 (NumElements - position)` give the same result. -/
lemma shiftDownF_congr : ∀ k f1 f2 s p, s.NumElements - p ≤ k → k ≤ f1 → k ≤ f2 →
    1 ≤ f1 → 1 ≤ f2 → shiftDownF f1 s p = shiftDownF f2 s p := by
  intro k
  induction k with
  | zero =>
    intro f1 f2 s p hk hf1 hf2 h1 h2
    obtain ⟨a, rfl⟩ : ∃ a, f1 = a + 1 := ⟨f1 - 1, by omega⟩
    obtain ⟨b, rfl⟩ : ∃ b, f2 = b + 1 := ⟨f2 - 1, by omega⟩
    have hr : getRightChildIndex p ≥ s.NumElements := by
      simp only [getRightChildIndex]; omega
    have hl : getLeftChildIndex p ≥ s.NumElements := by
      simp only [getLeftChildIndex]; omega
    simp [shiftDownF, hr, hl]
  | succ k ih =>
    intro f1 f2 s p hk hf1 hf2 h1 h2
    obtain ⟨a, rfl⟩ : ∃ a, f1 = a + 1 := ⟨f1 - 1, by omega⟩
    obtain ⟨b, rfl⟩ : ∃ b, f2 = b + 1 := ⟨f2 - 1, by omega⟩
    simp only [shiftDownF]
    split_ifs with hr hl hsw hsw2
    · rfl
    · -- recurse on the left child
      simp only [getLeftChildIndex, ge_iff_le, not_le] at hl
      refine ih a b _ _ ?_ ?_ ?_ ?_ ?_ <;>
        first
          | (simp only [shiftDownSwap_num, getLeftChildIndex]; omega)
          | omega
    · rfl
    · -- recurse on getSmallerChild
      simp only [getRightChildIndex, ge_iff_le, not_le] at hr
      rcases getSmallerChild_cases s p with hm | hm <;>
        rw [hm] <;>
        refine ih a b _ _ ?_ ?_ ?_ ?_ ?_ <;>
        first
          | (simp only [shiftDownSwap_num]; omega)
          | omega
    · rfl

/-- Sufficient fuel makes sift-down succeed (reach its base case). -/
lemma shiftDownF_some : ∀ k s p fuel, s.NumElements - p ≤ k → k ≤ fuel → 1 ≤ fuel →
    ∃ t, shiftDownF fuel s p = some t := by
  intro k
  induction k with
  | zero =>
    intro s p fuel hk hf h1
    obtain ⟨a, rfl⟩ : ∃ a, fuel = a + 1 := ⟨fuel - 1, by omega⟩
    have hr : getRightChildIndex p ≥ s.NumElements := by
      simp only [getRightChildIndex]; omega
    have hl : getLeftChildIndex p ≥ s.NumElements := by
      simp only [getLeftChildIndex]; omega
    exact ⟨s, by simp [shiftDownF, hr, hl]⟩
  | succ k ih =>
    intro s p fuel hk hf h1
    obtain ⟨a, rfl⟩ : ∃ a, fuel = a + 1 := ⟨fuel - 1, by omega⟩
    simp only [shiftDownF]
    split_ifs with hr hl hsw hsw2
    · exact ⟨s, rfl⟩
    · simp only [getLeftChildIndex, ge_iff_le, not_le] at hl
      refine ih _ _ a ?_ ?_ ?_ <;>
        first
          | (simp only [shiftDownSwap_num, getLeftChildIndex]; omega)
          | omega
    · exact ⟨s, rfl⟩
    · simp only [getRightChildIndex, ge_iff_le, not_le] at hr
      rcases getSmallerChild_cases s p with hm | hm <;>
        rw [hm] <;>
        refine ih _ _ a ?_ ?_ ?_ <;>
        first
          | (simp only [shiftDownSwap_num]; omega)
          | omega
    · exact ⟨s, rfl⟩

/-- Claim C9 (confirmed): all public operations of the model are total
functions, and the two recursive sift procedures always reach their base
case within the wrapper's fuel: `shiftUpF` succeeds and is fuel-independent
for any fuel above `position` (in particular at the root, third conjunct,
where the parent index `(0-1)/2 = 0` makes the guard `D ≥ D` true
immediately), and `shiftDownF` succeeds and is fuel-independent for any
fuel covering the element range. -/
theorem claim_C9_termination :
    (∀ s p fuel, p < fuel → shiftUpF fuel s p = some (shiftUp s p)) ∧
    (∀ s p fuel, 1 ≤ fuel → s.NumElements ≤ fuel + p →
      shiftDownF fuel s p = some (shiftDown s p)) ∧
    (∀ s, shiftUp s 0 = s) := by
  refine ⟨fun s p fuel h => shiftUpF_eq_shiftUp p fuel s h, ?_, ?_⟩
  · intro s p fuel h1 h2
    obtain ⟨t, ht⟩ := shiftDownF_some (s.NumElements - p) s p (s.NumElements + 1)
      (le_refl _) (by omega) (by omega)
    have hcongr := shiftDownF_congr (s.NumElements - p) fuel (s.NumElements + 1) s p
      (le_refl _) (by omega) (by omega) h1 (by omega)
    rw [hcongr, ht]
    unfold shiftDown
    rw [ht]
    rfl
  · intro s
    have h0 : getParentIndex 0 = 0 := rfl
    unfold shiftUp
    simp only [shiftUpF, h0]
    rw [if_pos le_rfl]
    rfl

/-- Witness for C9 at concrete inputs (the root case and a capacity-4
reachable state). -/
theorem claim_C9_termination_witness :
    shiftUpF 1 fresh4 0 = some (shiftUp fresh4 0) ∧
    shiftDownF 3 t1b 0 = some (shiftDown t1b 0) ∧ shiftUp fresh4 0 = fresh4 :=
  ⟨claim_C9_termination.1 fresh4 0 1 (by decide),
   claim_C9_termination.2.1 t1b 0 3 (by decide) (by decide),
   claim_C9_termination.2.2 fresh4⟩


/-! ## Wrapper-level preservation lemmas -/

lemma shiftUp_num (s : PQueue) (p : Nat) : (shiftUp s p).NumElements = s.NumElements :=
  (shiftUpF_basic (p + 1) s p _ (shiftUpF_eq_shiftUp p (p + 1) s (by omega))).1

lemma shiftUp_cap (s : PQueue) (p : Nat) : (shiftUp s p).Capacity = s.Capacity :=
  (shiftUpF_basic (p + 1) s p _ (shiftUpF_eq_shiftUp p (p + 1) s (by omega))).2

lemma shiftUp_invp {s : PQueue} {p : Nat} (hp : p < s.NumElements) (hInv : Inv s) :
    Inv (shiftUp s p) ∧ ∀ w e, Track s w e → Track (shiftUp s p) w e :=
  shiftUpF_main (p + 1) s p _ (shiftUpF_eq_shiftUp p (p + 1) s (by omega)) hp hInv

lemma shiftDown_eq_some (s : PQueue) (p : Nat) :
    shiftDownF (s.NumElements + 1) s p = some (shiftDown s p) := by
  obtain ⟨t, ht⟩ := shiftDownF_some (s.NumElements - p) s p (s.NumElements + 1)
    (le_refl _) (by omega) (by omega)
  rw [ht]
  unfold shiftDown
  rw [ht]
  rfl

lemma shiftDown_num (s : PQueue) (p : Nat) : (shiftDown s p).NumElements = s.NumElements :=
  (shiftDownF_basic (s.NumElements + 1) s p _ (shiftDown_eq_some s p)).1

lemma shiftDown_cap (s : PQueue) (p : Nat) : (shiftDown s p).Capacity = s.Capacity :=
  (shiftDownF_basic (s.NumElements + 1) s p _ (shiftDown_eq_some s p)).2

lemma shiftDown_inv {s : PQueue} {p : Nat} (hInv : Inv s) : Inv (shiftDown s p) :=
  shiftDownF_inv (s.NumElements + 1) s p _ (shiftDown_eq_some s p) hInv

lemma swap_num (s : PQueue) (pos : Nat) : (swap s pos).NumElements = s.NumElements := by
  simp only [swap]
  split_ifs <;> simp [shiftUp_num, shiftDown_num]

lemma swap_cap (s : PQueue) (pos : Nat) : (swap s pos).Capacity = s.Capacity := by
  simp only [swap]
  split_ifs <;> simp [shiftUp_cap, shiftDown_cap]

lemma swap_inv {s : PQueue} {pos : Nat} (hp : pos < s.NumElements) (hInv : Inv s) :
    Inv (swap s pos) := by
  simp only [swap]
  by_cases hA : inCorrectSpotwithRespectToParent s pos = true
  · simp only [if_pos hA]
    by_cases hB : inCorrectSpotwithRespectToChild s pos = true
    · simp only [if_pos hB]; exact hInv
    · simp only [if_neg hB]; exact shiftDown_inv hInv
  · simp only [if_neg hA]
    by_cases hB : inCorrectSpotwithRespectToChild (shiftUp s pos) pos = true
    · simp only [if_pos hB]; exact (shiftUp_invp hp hInv).1
    · simp only [if_neg hB]; exact shiftDown_inv ((shiftUp_invp hp hInv).1)

/-! ## `Insert` on success -/

@[simp] lemma insertBase_num (s : PQueue) (v : Int) (d : Rat) :
    (insertBase s v d).NumElements = s.NumElements + 1 := rfl

@[simp] lemma insertBase_cap (s : PQueue) (v : Int) (d : Rat) :
    (insertBase s v d).Capacity = s.Capacity := rfl

lemma insertBase_inv {s : PQueue} {v : Int} {d : Rat} (hpv : s.Positions v = -1)
    (hInv : Inv s) : Inv (insertBase s v d) ∧ Track (insertBase s v d) v d := by
  have habsent : ∀ i, i < s.NumElements → (s.Queue i).V ≠ v := by
    intro i hi hveq
    exact hInv.2 i hi (by rw [hveq, hpv])
  refine ⟨⟨?_, ?_⟩, ?_⟩
  · intro i j hi hj hij heq
    have hi' : i < s.NumElements + 1 := hi
    have hj' : j < s.NumElements + 1 := hj
    simp only [insertBase, Function.update_apply] at heq
    split_ifs at heq with e1 e2 e2
    · omega
    · exact absurd heq.symm (habsent j (by omega))
    · exact absurd heq (habsent i (by omega))
    · exact hInv.1 i j (by omega) (by omega) hij heq
  · intro i hi
    have hi' : i < s.NumElements + 1 := hi
    by_cases e1 : i = s.NumElements
    · subst e1
      simp [insertBase, Function.update_apply]
    · have hv : (s.Queue i).V ≠ v := habsent i (by omega)
      simp only [insertBase, Function.update_apply, if_neg e1, if_neg hv]
      exact hInv.2 i (by omega)
  · refine ⟨s.NumElements, by rw [insertBase_num]; omega, ?_, ?_⟩
    · simp [insertBase, Function.update_apply]
    · simp [insertBase, Function.update_apply]

lemma Insert_ok {s : PQueue} {v : Int} {d : Rat} {s' : PQueue} (hInv : Inv s)
    (h : Insert s v d = .ok s') :
    Inv s' ∧ Track s' v d ∧ s'.NumElements = s.NumElements + 1 ∧
      s'.Capacity = s.Capacity ∧ s.Positions v = -1 := by
  rw [Insert] at h
  by_cases h1 : v < 0 ∨ v ≥ (s.Capacity : Int)
  · rw [if_pos h1] at h; exact Except.noConfusion h
  rw [if_neg h1] at h
  by_cases h2 : s.Positions v ≠ -1
  · rw [if_pos h2] at h; exact Except.noConfusion h
  rw [if_neg h2] at h
  have hpv : s.Positions v = -1 := not_not.mp h2
  have hb := insertBase_inv (d := d) hpv hInv
  dsimp only at h
  split_ifs at h with h3
  · injection h with h
    subst h
    have hlt : (insertBase s v d).NumElements - 1 < (insertBase s v d).NumElements := by
      simp
    have hup := shiftUp_invp hlt hb.1
    refine ⟨hup.1, hup.2 v d hb.2, ?_, ?_, hpv⟩
    · rw [shiftUp_num, insertBase_num]
    · rw [shiftUp_cap, insertBase_cap]
  · injection h with h
    subst h
    exact ⟨hb.1, hb.2, rfl, rfl, hpv⟩


/-! ## `Delete` on success -/

@[simp] lemma deleteMove_num (s : PQueue) (pos : Nat) :
    (deleteMove s pos).NumElements = s.NumElements - 1 := rfl

@[simp] lemma deleteMove_cap (s : PQueue) (pos : Nat) :
    (deleteMove s pos).Capacity = s.Capacity := rfl

lemma deleteMove_queue (s : PQueue) (pos k : Nat) :
    (deleteMove s pos).Queue k =
      if k = s.NumElements - 1 then { V := -1, D := -1 }
      else if k = pos then s.Queue (s.NumElements - 1) else s.Queue k := by
  simp only [deleteMove, Function.update_apply]

lemma deleteMove_positions (s : PQueue) (pos : Nat) (w : Int) :
    (deleteMove s pos).Positions w =
      if w = (s.Queue pos).V then -1
      else if w = (s.Queue (s.NumElements - 1)).V then (pos : Int)
      else s.Positions w := by
  simp only [deleteMove, Function.update_apply]
  split_ifs <;> simp_all

lemma deleteMove_inv {s : PQueue} {pos : Nat} (hpos : pos < s.NumElements - 1)
    (hInv : Inv s) : Inv (deleteMove s pos) := by
  obtain ⟨hnd, hmk⟩ := hInv
  have hn1 : s.NumElements - 1 < s.NumElements := by omega
  constructor
  · intro i j hi hj hij heq
    have hi' : i < s.NumElements - 1 := hi
    have hj' : j < s.NumElements - 1 := hj
    have hine : i ≠ s.NumElements - 1 := by omega
    have hjne : j ≠ s.NumElements - 1 := by omega
    rw [deleteMove_queue, deleteMove_queue, if_neg hine, if_neg hjne] at heq
    rcases eq_or_ne i pos with e1 | e1 <;> rcases eq_or_ne j pos with e2 | e2
    · omega
    · rw [if_pos e1, if_neg e2] at heq
      exact hnd (s.NumElements - 1) j hn1 (by omega) (by omega) heq
    · rw [if_neg e1, if_pos e2] at heq
      exact hnd i (s.NumElements - 1) (by omega) hn1 (by omega) heq
    · rw [if_neg e1, if_neg e2] at heq
      exact hnd i j (by omega) (by omega) hij heq
  · intro i hi
    have hi' : i < s.NumElements - 1 := hi
    rw [deleteMove_queue, if_neg (by omega)]
    by_cases e1 : i = pos
    · rw [if_pos e1, deleteMove_positions]
      have hA : (s.Queue (s.NumElements - 1)).V ≠ (s.Queue pos).V :=
        hnd (s.NumElements - 1) pos hn1 (by omega) (by omega)
      rw [if_neg hA, if_pos rfl]
      omega
    · rw [if_neg e1, deleteMove_positions]
      have hA : (s.Queue i).V ≠ (s.Queue pos).V := hnd i pos (by omega) (by omega) e1
      have hB : (s.Queue i).V ≠ (s.Queue (s.NumElements - 1)).V :=
        hnd i (s.NumElements - 1) (by omega) hn1 (by omega)
      rw [if_neg hA, if_neg hB]
      exact hmk i (by omega)

lemma Delete_ok {s : PQueue} {position : Int} {v : Int} {s' : PQueue} (hInv : Inv s)
    (h : Delete s position = .ok (v, s')) :
    Inv s' ∧ s'.NumElements = s.NumElements - 1 ∧ s'.Capacity = s.Capacity := by
  rw [Delete] at h
  by_cases h0 : s.NumElements = 0
  · rw [if_pos h0] at h; exact Except.noConfusion h
  rw [if_neg h0] at h
  by_cases h1 : position < 0 ∨ position ≥ (s.NumElements : Int)
  · rw [if_pos h1] at h; exact Except.noConfusion h
  rw [if_neg h1] at h
  push_neg at h1
  dsimp only at h
  by_cases h2 : position.toNat = s.NumElements - 1
  · rw [if_pos h2] at h
    injection h with h
    injection h with hv hs
    subst hs
    refine ⟨⟨?_, ?_⟩, rfl, rfl⟩
    · intro i j hi hj hij heq
      have hi' : i < s.NumElements - 1 := hi
      have hj' : j < s.NumElements - 1 := hj
      simp only [Function.update_apply] at heq
      rw [if_neg (by omega), if_neg (by omega)] at heq
      exact hInv.1 i j (by omega) (by omega) hij heq
    · intro i hi
      have hi' : i < s.NumElements - 1 := hi
      have hip : i ≠ position.toNat := by omega
      have hvv : (s.Queue i).V ≠ (s.Queue position.toNat).V :=
        hInv.1 i position.toNat (by omega) (by omega) hip
      simp only [Function.update_apply, if_neg hip, if_neg hvv]
      exact hInv.2 i (by omega)
  rw [if_neg h2] at h
  by_cases h3 : s.NumElements = 1
  · exfalso; omega
  rw [if_neg h3] at h
  have hposlt : position.toNat < s.NumElements - 1 := by omega
  split_ifs at h with h4
  · injection h with h
    injection h with hv hs
    subst hs
    exact ⟨deleteMove_inv hposlt hInv, rfl, rfl⟩
  · injection h with h
    injection h with hv hs
    subst hs
    refine ⟨?_, ?_, ?_⟩
    · refine swap_inv ?_ (deleteMove_inv hposlt hInv)
      rw [deleteMove_num]
      omega
    · rw [swap_num, deleteMove_num]
    · rw [swap_cap, deleteMove_cap]

/-! ## `Push` on success, and the reachable-state invariant -/

lemma Push_ok {s : PQueue} {v : Int} {d : Rat} {s' : PQueue} (hInv : Inv s)
    (h : Push s v d = (none, s')) :
    Inv s' ∧ Track s' v d ∧ s'.Capacity = s.Capacity := by
  rw [Push] at h
  by_cases h1 : v < 0 ∨ v ≥ (s.Capacity : Int)
  · rw [if_pos h1] at h
    exact absurd (congrArg Prod.fst h) (by simp)
  rw [if_neg h1] at h
  by_cases h2 : s.Positions v ≥ 0
  · rw [if_pos h2] at h
    split at h
    · exact absurd (congrArg Prod.fst h) (by simp)
    · rename_i dv s1 heq
      split_ifs at h with h3 h4
      · exact absurd (congrArg Prod.fst h) (by simp)
      · exact absurd (congrArg Prod.fst h) (by simp)
      · split at h
        · exact absurd (congrArg Prod.fst h) (by simp)
        · rename_i s2 hins
          have hs2 : s2 = s' := congrArg Prod.snd h
          subst hs2
          have hd1 := Delete_ok hInv heq
          have hi1 := Insert_ok hd1.1 hins
          exact ⟨hi1.1, hi1.2.1, hi1.2.2.2.1.trans hd1.2.2⟩
  · rw [if_neg h2] at h
    split at h
    · exact absurd (congrArg Prod.fst h) (by simp)
    · rename_i s2 hins
      have hs2 : s2 = s' := congrArg Prod.snd h
      subst hs2
      have hi1 := Insert_ok hInv hins
      exact ⟨hi1.1, hi1.2.1, hi1.2.2.2.1⟩

/-- Every reachable state has pairwise-distinct occupied vertices, each of
which is not marked absent. -/
lemma reachable_inv : ∀ {s : PQueue}, Reachable s → Inv s := by
  intro s hs
  induction hs with
  | init N s h =>
    rw [construct] at h
    split_ifs at h
    injection h with h
    subst h
    exact ⟨fun i j hi _ _ _ => (Nat.not_lt_zero i hi).elim,
           fun i hi => (Nat.not_lt_zero i hi).elim⟩
  | fill s d hs ih =>
    constructor
    · intro i j hi hj hij heq
      have hi' : i < s.Capacity := hi
      have hj' : j < s.Capacity := hj
      simp only [Fill] at heq
      rw [if_pos hi', if_pos hj'] at heq
      simp at heq
      omega
    · intro i hi
      have hi' : i < s.Capacity := hi
      simp only [Fill]
      rw [if_pos hi']
      simp only []
      rw [if_pos ⟨by omega, by omega⟩]
      omega
  | push s v d t hs h ih => exact (Push_ok ih h).1
  | pop s v t hs h ih =>
    rw [PopMin] at h
    by_cases he : Empty s
    · rw [if_pos he] at h; simp at h
    · rw [if_neg he] at h
      split at h
      · simp at h
      · rename_i v1 s1 heq
        simp only [Prod.mk.injEq] at h
        obtain ⟨-, -, h3⟩ := h
        subst h3
        exact (Delete_ok ih heq).1

/-- Claim C5 (confirmed): on any reachable state, pushing the same in-range
vertex twice (both calls succeeding) leaves exactly one entry for that
vertex, and it carries the second distance. -/
theorem claim_C5_push_twice (s : PQueue) (hs : Reachable s) (v : Int)
    (_hv : 0 ≤ v ∧ v < (s.Capacity : Int)) (d1 d2 : Rat) (s1 s2 : PQueue)
    (h1 : Push s v d1 = (none, s1)) (h2 : Push s1 v d2 = (none, s2)) :
    ∃ i, i < s2.NumElements ∧ s2.Queue i = { V := v, D := d2 } ∧
      ∀ j, j < s2.NumElements → (s2.Queue j).V = v → j = i := by
  have hInv1 := (Push_ok (reachable_inv hs) h1).1
  have hP2 := Push_ok hInv1 h2
  obtain ⟨i, hi, hposv, hqi⟩ := hP2.2.1
  refine ⟨i, hi, hqi, ?_⟩
  intro j hj hveq
  by_contra hne
  exact hP2.1.1 j i hj hi hne (by rw [hveq, hqi])

/-- Witness for C5: capacity 4, `Push(0,5)` then `Push(0,3)`. -/
theorem claim_C5_push_twice_witness :
    ∃ i, i < (pushD (pushD fresh4 0 5) 0 3).NumElements ∧
      (pushD (pushD fresh4 0 5) 0 3).Queue i = { V := 0, D := 3 } ∧
      ∀ j, j < (pushD (pushD fresh4 0 5) 0 3).NumElements →
        ((pushD (pushD fresh4 0 5) 0 3).Queue j).V = 0 → j = i :=
  claim_C5_push_twice fresh4 reachable_fresh4 0 (by decide) 5 3
    (pushD fresh4 0 5) (pushD (pushD fresh4 0 5) 0 3)
    (push_ok_pair (by decide)) (push_ok_pair (by decide))


/-! ## Counting: claim C8 -/

lemma shiftUpF_occ : ∀ fuel s p t (S : Int → Prop), shiftUpF fuel s p = some t →
    p < s.NumElements → OccSub s S → (∀ w, ¬ S w → s.Positions w = -1) →
    OccSub t S ∧ ∀ w, ¬ S w → t.Positions w = -1 := by
  intro fuel
  induction fuel with
  | zero => intro s p t S h _ _ _; simp [shiftUpF] at h
  | succ fuel ih =>
    intro s p t S h hp hS hF
    simp only [shiftUpF] at h
    split_ifs at h with g1 g2
    · injection h with h; subst h; exact ⟨hS, hF⟩
    · have hp0 : p ≠ 0 := by
        rintro rfl
        exact g1 (by simp [getParentIndex])
      have hparlt : getParentIndex p < p := by unfold getParentIndex; omega
      have hparn : getParentIndex p < s.NumElements := lt_trans hparlt hp
      have hsS : OccSub (shiftUpSwap s p (getParentIndex p)) S := by
        intro k hk
        have hk' : k < s.NumElements := hk
        rw [shiftUpSwap_queue]
        split_ifs
        · exact hS (getParentIndex p) hparn
        · exact hS p hp
        · exact hS k hk'
      have hsF : ∀ w, ¬ S w → (shiftUpSwap s p (getParentIndex p)).Positions w = -1 := by
        intro w hw
        have c1 : w ≠ (s.Queue (getParentIndex p)).V :=
          fun hc => hw (by rw [hc]; exact hS _ hparn)
        have c2 : w ≠ (s.Queue p).V := fun hc => hw (by rw [hc]; exact hS _ hp)
        rw [shiftUpSwap_positions, if_neg c1, if_neg c2]
        exact hF w hw
      exact ih (shiftUpSwap s p (getParentIndex p)) (getParentIndex p) t S h hparn hsS hsF
    · injection h with h; subst h; exact ⟨hS, hF⟩

lemma shiftUp_occ {s : PQueue} {p : Nat} {S : Int → Prop} (hp : p < s.NumElements)
    (hS : OccSub s S) (hF : ∀ w, ¬ S w → s.Positions w = -1) :
    OccSub (shiftUp s p) S ∧ ∀ w, ¬ S w → (shiftUp s p).Positions w = -1 :=
  shiftUpF_occ (p + 1) s p _ S (shiftUpF_eq_shiftUp p (p + 1) s (by omega)) hp hS hF

lemma Insert_num {s : PQueue} {v : Int} {d : Rat} {s' : PQueue}
    (h : Insert s v d = .ok s') :
    s'.NumElements = s.NumElements + 1 ∧ s'.Capacity = s.Capacity := by
  rw [Insert] at h
  by_cases h1 : v < 0 ∨ v ≥ (s.Capacity : Int)
  · rw [if_pos h1] at h; exact Except.noConfusion h
  rw [if_neg h1] at h
  by_cases h2 : s.Positions v ≠ -1
  · rw [if_pos h2] at h; exact Except.noConfusion h
  rw [if_neg h2] at h
  dsimp only at h
  split_ifs at h with h3
  · injection h with h
    subst h
    constructor
    · rw [shiftUp_num, insertBase_num]
    · rw [shiftUp_cap, insertBase_cap]
  · injection h with h
    subst h
    exact ⟨rfl, rfl⟩

lemma Insert_occ {s : PQueue} {v : Int} {d : Rat} {s' : PQueue} {S : Int → Prop}
    (h : Insert s v d = .ok s') (hSv : S v)
    (hS : OccSub s S) (hF : ∀ w, ¬ S w → s.Positions w = -1) :
    OccSub s' S ∧ ∀ w, ¬ S w → s'.Positions w = -1 := by
  have hbS : OccSub (insertBase s v d) S := by
    intro k hk
    have hk' : k < s.NumElements + 1 := hk
    simp only [insertBase, Function.update_apply]
    split_ifs with e
    · exact hSv
    · exact hS k (by omega)
  have hbF : ∀ w, ¬ S w → (insertBase s v d).Positions w = -1 := by
    intro w hw
    have hwv : w ≠ v := fun hc => hw (by rw [hc]; exact hSv)
    simp only [insertBase, Function.update_apply, if_neg hwv]
    exact hF w hw
  rw [Insert] at h
  by_cases h1 : v < 0 ∨ v ≥ (s.Capacity : Int)
  · rw [if_pos h1] at h; exact Except.noConfusion h
  rw [if_neg h1] at h
  by_cases h2 : s.Positions v ≠ -1
  · rw [if_pos h2] at h; exact Except.noConfusion h
  rw [if_neg h2] at h
  dsimp only at h
  split_ifs at h with h3
  · injection h with h
    subst h
    exact shiftUp_occ (by simp) hbS hbF
  · injection h with h
    subst h
    exact ⟨hbS, hbF⟩

/-- A push of a vertex whose position entry is `-1` takes the plain-insert
path. -/
lemma Push_fresh {s : PQueue} {v : Int} {d : Rat} {s' : PQueue}
    (hv0 : s.Positions v = -1) (h : Push s v d = (none, s')) :
    Insert s v d = .ok s' := by
  rw [Push] at h
  by_cases h1 : v < 0 ∨ v ≥ (s.Capacity : Int)
  · rw [if_pos h1] at h
    exact absurd (congrArg Prod.fst h) (by simp)
  rw [if_neg h1] at h
  by_cases h2 : s.Positions v ≥ 0
  · exfalso; omega
  rw [if_neg h2] at h
  split at h
  · exact absurd (congrArg Prod.fst h) (by simp)
  · rename_i s2 hins
    have hs2 : s2 = s' := congrArg Prod.snd h
    rw [hs2] at hins
    exact hins

lemma pushSeq_len : ∀ (ps : List (Int × Rat)) (s : PQueue) (S : Int → Prop) (s' : PQueue),
    OccSub s S → (∀ w, ¬ S w → s.Positions w = -1) → (∀ p ∈ ps, ¬ S p.1) →
    (ps.map Prod.fst).Nodup → pushSeq s ps = some s' →
    s'.NumElements = s.NumElements + ps.length := by
  intro ps
  induction ps with
  | nil =>
    intro s S s' _ _ _ _ h
    injection h with h
    subst h
    simp
  | cons head rest ih =>
    obtain ⟨v, d⟩ := head
    intro s S s' hS hF hfresh hnd h
    simp only [pushSeq] at h
    split at h
    · rename_i t hPush
      have hfv : ¬ S v := hfresh (v, d) (List.mem_cons_self _ _)
      have hv0 : s.Positions v = -1 := hF v hfv
      have hins := Push_fresh hv0 hPush
      have hnum := Insert_num hins
      have hocc := Insert_occ (S := fun w => S w ∨ w = v) hins (Or.inr rfl)
        (fun k hk => Or.inl (hS k hk)) (fun w hw => hF w (fun hws => hw (Or.inl hws)))
      have hrest := ih t (fun w => S w ∨ w = v) s' hocc.1 hocc.2 ?_ ?_ h
      · rw [hrest, hnum.1, List.length_cons]
        omega
      · intro p hp
        rintro (hps | hpv)
        · exact hfresh p (List.mem_cons_of_mem _ hp) hps
        · simp only [List.map_cons, List.nodup_cons] at hnd
          exact hnd.1 (hpv ▸ List.mem_map_of_mem Prod.fst hp)
      · simp only [List.map_cons, List.nodup_cons] at hnd
        exact hnd.2
    · exact Option.noConfusion h

lemma Delete_num {s : PQueue} {position : Int} {v : Int} {s' : PQueue}
    (h : Delete s position = .ok (v, s')) :
    s'.NumElements = s.NumElements - 1 ∧ s'.Capacity = s.Capacity := by
  rw [Delete] at h
  by_cases h0 : s.NumElements = 0
  · rw [if_pos h0] at h; exact Except.noConfusion h
  rw [if_neg h0] at h
  by_cases h1 : position < 0 ∨ position ≥ (s.NumElements : Int)
  · rw [if_pos h1] at h; exact Except.noConfusion h
  rw [if_neg h1] at h
  push_neg at h1
  dsimp only at h
  by_cases h2 : position.toNat = s.NumElements - 1
  · rw [if_pos h2] at h
    injection h with h
    injection h with hv hs
    subst hs
    exact ⟨rfl, rfl⟩
  rw [if_neg h2] at h
  by_cases h3 : s.NumElements = 1
  · exfalso; omega
  rw [if_neg h3] at h
  split_ifs at h with h4
  · injection h with h
    injection h with hv hs
    subst hs
    exact ⟨rfl, rfl⟩
  · injection h with h
    injection h with hv hs
    subst hs
    constructor
    · rw [swap_num, deleteMove_num]
    · rw [swap_cap, deleteMove_cap]

lemma PopMin_num {s : PQueue} {v : Int} {t : PQueue}
    (h : PopMin s = (none, some v, t)) :
    t.NumElements = s.NumElements - 1 ∧ 1 ≤ s.NumElements := by
  rw [PopMin] at h
  by_cases he : Empty s
  · rw [if_pos he] at h; simp at h
  · rw [if_neg he] at h
    have hn : s.NumElements ≠ 0 := by
      simpa [Empty] using he
    split at h
    · simp at h
    · rename_i v1 s1 heq
      simp only [Prod.mk.injEq] at h
      obtain ⟨-, -, h3⟩ := h
      subst h3
      exact ⟨(Delete_num heq).1, by omega⟩

lemma popSeq_len : ∀ (m : Nat) (s s' : PQueue), popSeq s m = some s' →
    m ≤ s.NumElements ∧ s'.NumElements = s.NumElements - m := by
  intro m
  induction m with
  | zero =>
    intro s s' h
    injection h with h
    subst h
    exact ⟨Nat.zero_le _, rfl⟩
  | succ m ih =>
    intro s s' h
    simp only [popSeq] at h
    split at h
    · rename_i v1 t hPop
      have hp := PopMin_num hPop
      have hr := ih t s' h
      exact ⟨by omega, by omega⟩
    · exact Option.noConfusion h

/-- Claim C8 (confirmed): pushing `k` pairwise-distinct in-range vertices
into a fresh queue and then performing `m ≤ k` successful pops leaves the
queue empty exactly when `m = k`: each fresh push grows the count by one
(never taking the delete-existing path) and each successful pop shrinks it
by one. -/
theorem claim_C8_count_conservation (N : Int) (s0 : PQueue) (h0 : construct N = some s0)
    (ps : List (Int × Rat)) (hnd : (ps.map Prod.fst).Nodup)
    (_hr : ∀ p ∈ ps, 0 ≤ p.1 ∧ p.1 < N) (m : Nat) (hm : m ≤ ps.length)
    (s1 s2 : PQueue) (h1 : pushSeq s0 ps = some s1) (h2 : popSeq s1 m = some s2) :
    Empty s2 = true ↔ ps.length = m := by
  have hs0 : s0.NumElements = 0 ∧ ∀ w : Int, s0.Positions w = -1 := by
    rw [construct] at h0
    split_ifs at h0
    injection h0 with h0
    subst h0
    exact ⟨rfl, fun w => rfl⟩
  have hlen := pushSeq_len ps s0 (fun _ => False) s1
    (fun i hi => by rw [hs0.1] at hi; exact absurd hi (Nat.not_lt_zero i))
    (fun w _ => hs0.2 w) (fun p _ hf => hf) hnd h1
  have hpop := popSeq_len m s1 s2 h2
  have hE : Empty s2 = true ↔ s2.NumElements = 0 := by simp [Empty]
  rw [hE]
  omega

/-- Witness for C8: capacity 1, one push, one pop. -/
theorem claim_C8_count_conservation_witness :
    Empty (popD (pushD fresh1 0 5)) = true ↔ ([((0 : Int), (5 : Rat))].length = 1) :=
  claim_C8_count_conservation 1 fresh1 rfl [(0, 5)] (by simp) (by norm_num) 1 (by simp)
    (pushD fresh1 0 5) (popD (pushD fresh1 0 5))
    (by simp only [pushSeq]; rw [push_ok_pair (by decide)])
    (by simp only [popSeq]; rw [pop_ok_triple (v := 0) (by decide) (by decide)])

end PQueue
